import Mathlib

set_option maxHeartbeats 1000000
set_option linter.unnecessarySeqFocus false

namespace SingleFile

/-! A verification development for the crawl scheduler, crawl policy,
rewrite engine, filename allocator, capture error handling and reference
resolver of the SingleFile command line front end (`cli/single-file`).
JavaScript strings are modelled as Lean strings; the regular expressions
the program builds from `escapeRegExp`-escaped text match literally, so
they are modelled as literal (case-insensitive where the "gi" flags are
used) pattern matching on character lists. -/

/-- Whitespace recognised by the model of JS `trim` (the whitespace
characters that occur in URL and rule inputs). -/
def wsChar (c : Char) : Bool := c == ' ' || c == '\t' || c == '\n' || c == '\r'

/-- Drop leading whitespace. -/
def trimLeftL (l : List Char) : List Char := l.dropWhile wsChar

/-- Drop trailing whitespace. -/
def trimRightL (l : List Char) : List Char := (l.reverse.dropWhile wsChar).reverse

/-- Drop whitespace at both ends. -/
def trimL (l : List Char) : List Char := trimRightL (trimLeftL l)

/-- Model of JS `String.prototype.trim`. -/
def jsTrim (s : String) : String := ⟨trimL s.data⟩

/-- Exact prefix test on character lists. -/
def isPrefixL : List Char → List Char → Bool
  | [], _ => true
  | _ :: _, [] => false
  | a :: as, b :: bs => a == b && isPrefixL as bs

/-- Model of JS `s.startsWith(t)`. -/
def strStarts (s t : String) : Bool := isPrefixL t.data s.data

/-- Case-insensitive character comparison (the "i" regular-expression
flag, ASCII case folding). -/
def charCI (a b : Char) : Bool := a.toLower == b.toLower

/-- Case-insensitive prefix test. -/
def isPrefixCIL : List Char → List Char → Bool
  | [], _ => true
  | _ :: _, [] => false
  | a :: as, b :: bs => charCI a b && isPrefixCIL as bs

/-- Core of the model of `content.replace(new RegExp(escapeRegExp(pat), "gi"), repl)`:
scan left to right, replacing every non-overlapping case-insensitive
occurrence of the literal pattern.  The `skip` counter carries the still
to be consumed remainder of a match across the structural recursion.
An empty pattern never matches here; the program only ever builds
patterns of length at least two. -/
def replCoreS (pat repl : List Char) : Nat → List Char → List Char
  | _, [] => []
  | k + 1, _ :: rest => replCoreS pat repl k rest
  | 0, c :: rest =>
    if pat ≠ [] ∧ isPrefixCIL pat (c :: rest) then
      repl ++ replCoreS pat repl (pat.length - 1) rest
    else
      c :: replCoreS pat repl 0 rest

/-- Model of the global case-insensitive literal replacement used by the
reference resolver. -/
def replaceAllCI (s pat repl : String) : String := ⟨replCoreS pat.data repl.data 0 s.data⟩

/-- Core of the model of `url.replace(new RegExp(pat), repl)` for a
literal pattern: replace only the first occurrence. -/
def replFirstCore (pat repl : List Char) : List Char → List Char
  | [] => []
  | c :: rest =>
    if isPrefixL pat (c :: rest) then repl ++ List.drop (pat.length - 1) rest
    else c :: replFirstCore pat repl rest

/-- Model of `url.replace(new RegExp(pat), repl)`: a first-match-only
replacement; an empty pattern matches at position 0 as in JS. -/
def replFirst (s pat repl : String) : String :=
  if pat.data = [] then repl ++ s else ⟨replFirstCore pat.data repl.data s.data⟩

/-- Model of `filename.replace(/ /g, "%20")` (line 71 of the source). -/
def spaceEncode (s : String) : String :=
  ⟨s.data.foldr (fun c acc => (if c = ' ' then "%20".data else [c]) ++ acc) []⟩

/-- Model of `escapeRegExp` (lines 178-180): escape every regular
expression metacharacter, which makes the resulting pattern match the
original text literally. -/
def escapeRegExp (s : String) : String :=
  ⟨s.data.foldr
    (fun c acc =>
      (if c ∈ ['.', '*', '+', '?', '^', '$', '\x7b', '\x7d', '(', ')', '|', '[', ']', '\\']
       then ['\\', c] else [c]) ++ acc) []⟩

/-- Split a character list at every separator character, keeping empty
pieces, as JS `String.prototype.split` does with a single-character
separator. -/
def splitChars (p : Char → Bool) : List Char → List (List Char)
  | [] => [[]]
  | c :: rest =>
    if p c then [] :: splitChars p rest
    else
      match splitChars p rest with
      | [] => [[c]]
      | w :: ws => (c :: w) :: ws

/-- Model of `rule.trim().split(/ +/)`.  JS returns `[""]` for the empty
string; on trimmed input (the only way `rewriteURL` calls it) splitting
at runs of one or more spaces is filtering the empty pieces out of a
plain single-space split. -/
def splitSp (s : String) : List String :=
  if s = "" then [""]
  else ((splitChars (· == ' ') s.data).map (fun l => (⟨l⟩ : String))).filter (fun p => p != "")

/-- One iteration of the `rewriteRules.forEach` body of `rewriteURL`
(lines 123-128): a rule is applied only when it has exactly two fields. -/
def ruleStep (url : String) (rule : String) : String :=
  match splitSp (jsTrim rule) with
  | [p, q] => jsTrim (replFirst url p q)
  | _ => url

/-- Model of `rewriteURL` (lines 121-130). -/
def rewriteURL (url : String) (rules : List String) : String :=
  rules.foldl ruleStep (jsTrim url)

/-- Splitting a rule at whitespace of any kind.  This follows the words
of the specification ("two whitespace-separated fields"), for comparison
against the source's space-only `split(/ +/)`. -/
def splitWs (s : String) : List String :=
  if s = "" then [""]
  else ((splitChars wsChar s.data).map (fun l => (⟨l⟩ : String))).filter (fun p => p != "")

/-- Modelled from the spec: `rewriteURL` as the claim reads it, with
rule fields separated by arbitrary whitespace rather than only spaces.
Used solely to compare the claim's reading with the source behaviour. -/
def rewriteURLSpec (url : String) (rules : List String) : String :=
  rules.foldl
    (fun u rule =>
      match splitWs (jsTrim rule) with
      | [p, q] => jsTrim (replFirst u p q)
      | _ => u)
    (jsTrim url)

/-- The parts of a parsed URL read by `getHostURL`; the `protocol` field
carries its trailing colon, as the JS `URL` class does. -/
structure URLRec where
  protocol : String
  username : String
  password : String
  hostname : String
deriving DecidableEq, Repr

/-- Model of `getHostURL` (lines 132-135).  Note `url.password || ""`
is just `url.password` for strings, and username and password are
concatenated with no separator. -/
def getHostURL (u : URLRec) : String :=
  u.protocol ++ "//" ++ (if u.username ≠ "" then u.username ++ u.password ++ "@" else "") ++ u.hostname

/-- Standard serialization of a URL with userinfo: the password, when
present, is preceded by a colon.  `path` stands for everything after the
host. -/
def urlString (u : URLRec) (path : String) : String :=
  u.protocol ++ "//"
    ++ (if u.username ≠ "" then
          u.username ++ (if u.password ≠ "" then ":" ++ u.password else "") ++ "@"
        else "")
    ++ u.hostname ++ path

/-- Task status: JS `undefined` / `"processing"` / `"processed"`. -/
inductive TaskStatus where
  | pending
  | processing
  | processed
deriving DecidableEq, Repr

/-- A frontier entry as built by `run` and `runNextTask`. -/
structure Task where
  url : String
  originalUrl : String
  depth : Nat
  status : TaskStatus
  filename : Option String
deriving DecidableEq, Repr

/-- The crawl-relevant options.  `parse` stands for the external JS
`URL` parser consumed by `getHostURL`. -/
structure CrawlConfig where
  maxParallelWorkers : Nat
  crawlLinks : Bool
  crawlMaxDepth : Nat
  crawlInnerLinksOnly : Bool
  urlRewriteRules : List String
  crawlReplaceURLs : Bool
  parse : String → URLRec

/-- Model of `VALID_URL_TEST = /^(https?|file):\/\//` (line 28). -/
def validURL (s : String) : Bool :=
  strStarts s "http://" || strStarts s "https://" || strStarts s "file://"

/-- A freshly created task (seed or discovered link). -/
def mkTask (rules : List String) (link : String) (depth : Nat) : Task :=
  { url := rewriteURL link rules, originalUrl := link, depth := depth
    status := .pending, filename := none }

/-- What a capture returns on success (the external backend contract). -/
structure PageData where
  content : String
  filename : String
  links : List String
deriving DecidableEq, Repr

/-- Model of the link expansion of `runNextTask` (lines 107-113): map
each returned link through the rewrite engine, keep those with a
non-empty valid url not already present anywhere in the frontier, and
optionally keep only links on the parent's host. -/
def expandBase (cfg : CrawlConfig) (ts : List Task) (parent : Task) (links : List String) :
    List Task :=
  (links.map (fun l => mkTask cfg.urlRewriteRules l (parent.depth + 1))).filter
    (fun t => t.url != "" && validURL t.url && ts.all (fun o => o.url != t.url))

/-- The optional host restriction of lines 110-113. -/
def expandLinks (cfg : CrawlConfig) (ts : List Task) (parent : Task) (links : List String) :
    List Task :=
  if cfg.crawlInnerLinksOnly then
    (expandBase cfg ts parent links).filter
      (fun t => strStarts t.url (getHostURL (cfg.parse parent.url)))
  else expandBase cfg ts parent links

/-- Count of tasks with no status yet (`tasks.filter(task => !task.status).length`). -/
def countPending (ts : List Task) : Nat := ts.countP (fun t => t.status == .pending)

/-- Count of tasks with status `"processing"`. -/
def countProcessing (ts : List Task) : Nat := ts.countP (fun t => t.status == .processing)

/-- Claim the first pending task (`tasks.find(task => !task.status)`
followed by `task.status = "processing"`, lines 97-101). -/
def claimFirst : List Task → List Task
  | [] => []
  | t :: r =>
    if t.status == .pending then { t with status := .processing } :: r
    else t :: claimFirst r

/-- Claim the first `k` pending tasks; each `runNextTask` spawned by a
`runTasks` loop claims its task synchronously before any other worker
resumes. -/
def claimN : Nat → List Task → List Task
  | 0, ts => ts
  | k + 1, ts => claimN k (claimFirst ts)

/-- Model of one `runTasks` invocation (lines 86-94): start
`min(available, maxParallelWorkers - processing)` workers, each of which
immediately claims one pending task. -/
def runTasksStep (cfg : CrawlConfig) (ts : List Task) : List Task :=
  claimN (min (countPending ts) (cfg.maxParallelWorkers - countProcessing ts)) ts

/-- Model of the frontier mutation performed when the capture of task
`i` settles (lines 102-115): mark it processed; on success record the
reported filename and, depth permitting, append the admitted links. -/
def completeTask (cfg : CrawlConfig) (ts : List Task) (i : Nat) (result : Option PageData) :
    List Task :=
  match ts[i]? with
  | none => ts
  | some t =>
    match result with
    | none => ts.set i { t with status := .processed }
    | some pd =>
      if cfg.crawlLinks = true ∧ t.depth < cfg.crawlMaxDepth then
        ts.set i { t with status := .processed, filename := some pd.filename }
          ++ expandLinks cfg
              (ts.set i { t with status := .processed, filename := some pd.filename })
              { t with status := .processed, filename := some pd.filename } pd.links
      else ts.set i { t with status := .processed, filename := some pd.filename }

/-- The two ways `run` builds the seed list (lines 56-62). -/
inductive SeedInput where
  | single (url : String)
  | urlsFile (content : String)

/-- Model of the seed construction: one task per line of the URL list
with empty rewritten urls filtered out, or exactly one unfiltered task
for a single URL. -/
def seedTasks (cfg : CrawlConfig) (inp : SeedInput) : List Task :=
  match inp with
  | .single url => [mkTask cfg.urlRewriteRules url 0]
  | .urlsFile content =>
    ((splitChars (· == '\n') content.data).map
        (fun l => mkTask cfg.urlRewriteRules (⟨l⟩ : String) 0)).filter
      (fun t => t.url != "")

/-- The frontier right after `run` has built the seeds and the first
`runTasks` call has started its workers. -/
def initState (cfg : CrawlConfig) (inp : SeedInput) : List Task :=
  runTasksStep cfg (seedTasks cfg inp)

/-- One scheduler transition: some in-flight capture settles with an
arbitrary backend result, the frontier is updated, and the worker's
recursive `runTasks` call immediately refills the pool.  Everything
between two `await` points of the JS code is one atomic step. -/
inductive Step (cfg : CrawlConfig) : List Task → List Task → Prop
  | complete (ts : List Task) (i : Nat) (t : Task) (result : Option PageData)
      (hget : ts[i]? = some t) (hstatus : t.status = .processing) :
      Step cfg ts (runTasksStep cfg (completeTask cfg ts i result))

/-- States the scheduler can reach from the initial frontier. -/
inductive Reachable (cfg : CrawlConfig) (inp : SeedInput) : List Task → Prop
  | init : Reachable cfg inp (initState cfg inp)
  | step {s s' : List Task} : Reachable cfg inp s → Step cfg s s' → Reachable cfg inp s'

/-- No case-insensitive occurrence of `pat` begins at any of the first
`k` positions of `s`. -/
abbrev noMatchBefore (pat s : List Char) (k : Nat) : Prop :=
  ∀ i, i < k → isPrefixCIL pat (s.drop i) = false

/-- No exact occurrence of `pat` begins at any of the first `k`
positions of `s`. -/
abbrev noMatchBeforeE (pat s : List Char) (k : Nat) : Prop :=
  ∀ i, i < k → isPrefixL pat (s.drop i) = false

/-- An on-disk store of text files, by path. -/
abbrev FS := List (String × String)

/-- Read a file as text (`fs.readFileSync`), `none` when missing. -/
def fsRead : FS → String → Option String
  | [], _ => none
  | (n, c) :: r, name => if n = name then some c else fsRead r name

/-- Write a file (`fs.writeFileSync`), overwriting or creating. -/
def fsWrite : FS → String → String → FS
  | [], name, c => [(name, c)]
  | (n, d) :: r, name, c => if n = name then (n, c) :: r else (n, d) :: fsWrite r name c

/-- Append to a file (`fs.writeFileSync` with flag "a"), creating it
when missing. -/
def fsAppend (fs : FS) (name c : String) : FS :=
  fsWrite fs name ((fsRead fs name).getD "" ++ c)

/-- The names present on disk (`fs.existsSync` domain). -/
def fsNames (fs : FS) : List String := fs.map (fun p => p.1)

/-- The candidate name `getFilename` tries at `index` (lines 160-170):
the name itself first, then with " - index" inserted before the
extension when the name matches `/(\.[^.]+)$/`, else appended. -/
def extSplit (l : List Char) : Option (List Char × List Char) :=
  let tailRev := l.reverse.takeWhile (fun c => c != '.')
  match l.reverse.dropWhile (fun c => c != '.') with
  | [] => none
  | c :: stemRev =>
    if tailRev.isEmpty then none else some (stemRev.reverse, c :: tailRev.reverse)

/-- The `index`-th name probed by `getFilename`. -/
def candidate (filename : String) (index : Nat) : String :=
  if index ≤ 1 then filename
  else
    match extSplit filename.data with
    | some (stem, ext) => (⟨stem⟩ : String) ++ " - " ++ toString index ++ (⟨ext⟩ : String)
    | none => filename ++ " - " ++ toString index

/-- The probing loop of `getFilename`, with explicit fuel standing for
the termination argument of the JS recursion. -/
def goGF (disk : List String) (filename : String) : Nat → Nat → Option String
  | 0, _ => none
  | fuel + 1, index =>
    if candidate filename index ∈ disk then goGF disk filename fuel (index + 1)
    else some (candidate filename index)

/-- Model of `getFilename` (lines 160-176).  `disk.length + 1` probes
always suffice in the JS original because the candidates are pairwise
distinct; the fuel only totalises the recursion. -/
def getFilename (disk : List String) (filename : String) : Option String :=
  goGF disk filename (disk.length + 1) 1

/-- The observable world of the command line front end. -/
structure World where
  disk : FS
  stdoutLog : List String
  stderrLog : List String
deriving DecidableEq, Repr

/-- The capture-unrelated options read by `capturePage`; empty strings
are the JS falsy defaults. -/
structure RunCfg where
  output : String
  filenameTemplate : String
  errorFile : String
deriving DecidableEq, Repr

/-- Model of `capturePage` (lines 137-158) with the backend call's
outcome passed in as `res`.  On failure the error block is appended to
the error file when configured, otherwise printed to stderr, and no
page data is returned; no exception escapes. -/
def capturePage (rc : RunCfg) (url : String) (res : Except String PageData) (w : World) :
    Option PageData × World :=
  match res with
  | .ok pd =>
    if rc.output ≠ "" then
      (some pd,
        match getFilename (fsNames w.disk) rc.output with
        | some name => { w with disk := fsWrite w.disk name pd.content }
        | none => w)
    else if rc.filenameTemplate ≠ "" ∧ pd.filename ≠ "" then
      (some pd,
        match getFilename (fsNames w.disk) pd.filename with
        | some name => { w with disk := fsWrite w.disk name pd.content }
        | none => w)
    else (some pd, { w with stdoutLog := w.stdoutLog ++ [pd.content] })
  | .error stack =>
    let message := "URL: " ++ url ++ "\nStack: " ++ stack ++ "\n"
    (none,
      if rc.errorFile ≠ "" then { w with disk := fsAppend w.disk rc.errorFile message }
      else { w with stderrLog := w.stderrLog ++ [message] })

/-- The four reference-resolver substitutions for one source task
(lines 69-73), in source order: quoted forms keep the filename verbatim,
the attribute forms use the space-encoded filename and keep their
terminator. -/
def applySubs (c origUrl fn : String) : String :=
  let c1 := replaceAllCI c ("\"" ++ origUrl ++ "\"") ("\"" ++ fn ++ "\"")
  let c2 := replaceAllCI c1 ("'" ++ origUrl ++ "'") ("'" ++ fn ++ "'")
  let f := spaceEncode fn
  let c3 := replaceAllCI c2 ("=" ++ origUrl ++ " ") ("=" ++ f ++ " ")
  replaceAllCI c3 ("=" ++ origUrl ++ ">") ("=" ++ f ++ ">")

/-- The inner `tasks.forEach(otherTask => ...)` body for one source
task.  When `otherTask.filename` is undefined, line 71 throws a
TypeError; the quoted-form replacements of lines 69-70 that already ran
only touch the local `pageContent`, which the enclosing catch then
discards, so the error outcome carries no content. -/
def applyOther (c : String) (o : Task) : Except Unit String :=
  match o.filename with
  | none => .error ()
  | some fn => .ok (applySubs c o.originalUrl fn)

/-- The resolver pass over one task `t` (lines 65-79): read its file,
run every task's substitutions over the text, write it back; any error
along the way leaves the file exactly as captured. -/
def resolveTask (fs : FS) (tasks : List Task) (t : Task) : FS :=
  match t.filename with
  | none => fs
  | some fn =>
    match fsRead fs fn with
    | none => fs
    | some content =>
      match tasks.foldlM applyOther content with
      | .error _ => fs
      | .ok c => fsWrite fs fn c

/-- Model of the reference resolver (lines 64-80), run once after the
crawl drains and only when `crawlReplaceURLs` is set. -/
def resolveAll (crawlReplaceURLs : Bool) (fs : FS) (tasks : List Task) : FS :=
  if crawlReplaceURLs then tasks.foldl (fun f t => resolveTask f tasks t) fs else fs

/-- A parser stub for configurations whose scenarios never consult the
host filter. -/
def noParse : String → URLRec := fun _ => ⟨"", "", "", ""⟩

/-- Configuration for the frontier-uniqueness scenario: one worker,
crawling enabled to depth 1, no host restriction, no rewrite rules. -/
def cfgC2 : CrawlConfig :=
  { maxParallelWorkers := 1, crawlLinks := true, crawlMaxDepth := 1
    crawlInnerLinksOnly := false, urlRewriteRules := [], crawlReplaceURLs := true
    parse := noParse }

/-- The page data returned for the seed in the uniqueness scenario: the
same outbound link reported twice. -/
def pdC2 : PageData := { content := "", filename := "f.html", links := ["http://x/a", "http://x/a"] }

/-- The frontier after the seed capture of the uniqueness scenario
settles. -/
def stateC2 : List Task :=
  runTasksStep cfgC2 (completeTask cfgC2 (initState cfgC2 (.single "http://x/")) 0 (some pdC2))

/-- Configuration for the empty-seed scenario. -/
def cfgC3 : CrawlConfig :=
  { maxParallelWorkers := 1, crawlLinks := false, crawlMaxDepth := 0
    crawlInnerLinksOnly := false, urlRewriteRules := [], crawlReplaceURLs := false
    parse := noParse }

/-- A processed task whose own original URL occurs in its own file. -/
def taskC1 : Task :=
  { url := "http://a/", originalUrl := "http://a/", depth := 0
    status := .processed, filename := some "f.html" }

/-- The disk before the resolver runs in the self-substitution scenario. -/
def fsC1 : FS := [("f.html", "x\"http://a/\"y")]

theorem data_append (s t : String) : (s ++ t).data = s.data ++ t.data := rfl

theorem dropWhile_head_false {α : Type} (p : α → Bool) :
    ∀ (l : List α) (c : α) (rest : List α), l.dropWhile p = c :: rest → p c = false := by
  intro l
  induction l with
  | nil => intro c rest h; simp [List.dropWhile] at h
  | cons x xs ih =>
    intro c rest h
    by_cases hx : p x
    · rw [List.dropWhile_cons, if_pos hx] at h
      exact ih c rest h
    · rw [List.dropWhile_cons, if_neg hx] at h
      cases h
      simpa using hx

theorem dropWhile_idem {α : Type} (p : α → Bool) (l : List α) :
    (l.dropWhile p).dropWhile p = l.dropWhile p := by
  cases h : l.dropWhile p with
  | nil => rfl
  | cons c rest =>
    have hc : p c = false := dropWhile_head_false p l c rest h
    rw [List.dropWhile_cons, if_neg (by simp [hc])]

theorem exists_append_dropWhile {α : Type} (p : α → Bool) :
    ∀ l : List α, ∃ t, l = t ++ l.dropWhile p := by
  intro l
  induction l with
  | nil => exact ⟨[], rfl⟩
  | cons x xs ih =>
    by_cases hx : p x
    · obtain ⟨t, ht⟩ := ih
      refine ⟨x :: t, ?_⟩
      rw [List.dropWhile_cons, if_pos hx]
      simpa using ht
    · exact ⟨[], by rw [List.dropWhile_cons, if_neg hx]; rfl⟩

theorem trimRightL_idem (l : List Char) : trimRightL (trimRightL l) = trimRightL l := by
  unfold trimRightL
  rw [List.reverse_reverse, dropWhile_idem]

theorem dropWhile_trimRightL_dropWhile (l : List Char) :
    (trimRightL (l.dropWhile wsChar)).dropWhile wsChar = trimRightL (l.dropWhile wsChar) := by
  obtain ⟨t, ht⟩ := exists_append_dropWhile wsChar (l.dropWhile wsChar).reverse
  have hm : l.dropWhile wsChar = trimRightL (l.dropWhile wsChar) ++ t.reverse := by
    unfold trimRightL
    calc l.dropWhile wsChar = (l.dropWhile wsChar).reverse.reverse := by rw [List.reverse_reverse]
    _ = (t ++ ((l.dropWhile wsChar).reverse.dropWhile wsChar)).reverse := by rw [← ht]
    _ = ((l.dropWhile wsChar).reverse.dropWhile wsChar).reverse ++ t.reverse := by
        rw [List.reverse_append]
  cases h : trimRightL (l.dropWhile wsChar) with
  | nil => rfl
  | cons c rest =>
    have hc : wsChar c = false := by
      apply dropWhile_head_false wsChar l c (rest ++ t.reverse)
      rw [hm, h]
      rfl
    rw [List.dropWhile_cons, if_neg (by simp [hc])]

theorem trimL_idem (l : List Char) : trimL (trimL l) = trimL l := by
  show trimRightL ((trimRightL (l.dropWhile wsChar)).dropWhile wsChar) = _
  rw [dropWhile_trimRightL_dropWhile, trimRightL_idem]
  rfl

theorem jsTrim_idem (s : String) : jsTrim (jsTrim s) = jsTrim s :=
  congrArg String.mk (trimL_idem s.data)

theorem isPrefixCIL_append_self : ∀ (p b : List Char), isPrefixCIL p (p ++ b) = true := by
  intro p
  induction p with
  | nil => intro b; rfl
  | cons c p ih => intro b; simp [isPrefixCIL, charCI, ih]

theorem isPrefixL_append_self : ∀ (p b : List Char), isPrefixL p (p ++ b) = true := by
  intro p
  induction p with
  | nil => intro b; rfl
  | cons c p ih => intro b; simp [isPrefixL, ih]

theorem replCoreS_skip (pat repl : List Char) (xs : List Char) :
    ∀ b, replCoreS pat repl xs.length (xs ++ b) = replCoreS pat repl 0 b := by
  induction xs with
  | nil => intro b; rfl
  | cons x xs ih => intro b; simpa [replCoreS] using ih b

/-- The central behaviour of the global case-insensitive replacement:
the first occurrence (nothing matches earlier) is replaced, and the
scan continues after it, replacing every later occurrence too. -/
theorem replCoreS_middle (pat repl : List Char) (hp : pat ≠ []) :
    ∀ (a b : List Char), noMatchBefore pat (a ++ (pat ++ b)) a.length →
      replCoreS pat repl 0 (a ++ (pat ++ b)) = a ++ (repl ++ replCoreS pat repl 0 b) := by
  intro a
  induction a with
  | nil =>
    intro b _
    obtain ⟨p, pt, rfl⟩ := List.exists_cons_of_ne_nil hp
    show replCoreS (p :: pt) repl 0 (p :: (pt ++ b)) = _
    rw [replCoreS, if_pos ⟨List.cons_ne_nil p pt, by
      simpa using isPrefixCIL_append_self (p :: pt) b⟩]
    simp [replCoreS_skip]
  | cons x a ih =>
    intro b h
    have h0 : isPrefixCIL pat (x :: (a ++ (pat ++ b))) = false := by
      have := h 0 (Nat.succ_pos _)
      simpa using this
    show replCoreS pat repl 0 (x :: (a ++ (pat ++ b))) = _
    rw [replCoreS, if_neg (by simp [h0])]
    have h' : noMatchBefore pat (a ++ (pat ++ b)) a.length := by
      intro i hi
      have := h (i + 1) (by simpa using Nat.succ_lt_succ hi)
      simpa using this
    rw [ih b h']
    simp

/-- The first-match-only replacement: the earliest occurrence is
replaced and everything after it is kept verbatim. -/
theorem replFirstCore_middle (pat repl : List Char) (hp : pat ≠ []) :
    ∀ (a b : List Char), noMatchBeforeE pat (a ++ (pat ++ b)) a.length →
      replFirstCore pat repl (a ++ (pat ++ b)) = a ++ (repl ++ b) := by
  intro a
  induction a with
  | nil =>
    intro b _
    obtain ⟨p, pt, rfl⟩ := List.exists_cons_of_ne_nil hp
    show replFirstCore (p :: pt) repl (p :: (pt ++ b)) = _
    rw [replFirstCore, if_pos (by simpa using isPrefixL_append_self (p :: pt) b)]
    simp [List.drop_left']
  | cons x a ih =>
    intro b h
    have h0 : isPrefixL pat (x :: (a ++ (pat ++ b))) = false := by
      have := h 0 (Nat.succ_pos _)
      simpa using this
    show replFirstCore pat repl (x :: (a ++ (pat ++ b))) = _
    rw [replFirstCore, if_neg (by simp [h0])]
    have h' : noMatchBeforeE pat (a ++ (pat ++ b)) a.length := by
      intro i hi
      have := h (i + 1) (by simpa using Nat.succ_lt_succ hi)
      simpa using this
    rw [ih b h']
    simp

theorem mem_of_getElemOpt {α : Type} :
    ∀ (l : List α) (i : Nat) (a : α), l[i]? = some a → a ∈ l := by
  intro l
  induction l with
  | nil => intro i a h; simp at h
  | cons x xs ih =>
    intro i a h
    cases i with
    | zero => simp at h; simp [h]
    | succ j =>
      simp at h
      exact List.mem_cons_of_mem _ (ih j a h)

theorem mem_set_cases {α : Type} :
    ∀ (l : List α) (i : Nat) (x a : α), a ∈ l.set i x → a ∈ l ∨ a = x := by
  intro l
  induction l with
  | nil => intro i x a h; simp [List.set] at h
  | cons y ys ih =>
    intro i x a h
    cases i with
    | zero =>
      rcases List.mem_cons.mp h with rfl | h2
      · exact Or.inr rfl
      · exact Or.inl (List.mem_cons_of_mem _ h2)
    | succ j =>
      rcases List.mem_cons.mp h with rfl | h2
      · exact Or.inl (List.mem_cons_self ..)
      · rcases ih j x a h2 with h3 | h3
        · exact Or.inl (List.mem_cons_of_mem _ h3)
        · exact Or.inr h3

theorem countP_set_le {α : Type} (p : α → Bool) (x : α) (hx : p x = false) :
    ∀ (l : List α) (i : Nat), (l.set i x).countP p ≤ l.countP p := by
  intro l
  induction l with
  | nil => intro i; simp [List.set]
  | cons a r ih =>
    intro i
    cases i with
    | zero =>
      simp only [List.set, List.countP_cons, hx, Bool.false_eq_true, if_false]
      omega
    | succ j =>
      simp only [List.set, List.countP_cons]
      exact Nat.add_le_add_right (ih j) _

theorem mem_expandBase (cfg : CrawlConfig) (ts : List Task) (parent : Task) (links : List String) :
    ∀ t ∈ expandBase cfg ts parent links,
      t.status = .pending ∧ t.filename = none ∧ t.depth = parent.depth + 1 ∧
        t.url ≠ "" ∧ validURL t.url = true ∧ (∀ o ∈ ts, o.url ≠ t.url) := by
  intro t ht
  obtain ⟨hmem, hpred⟩ := List.mem_filter.mp ht
  obtain ⟨l, _, rfl⟩ := List.mem_map.mp hmem
  simp only [Bool.and_eq_true, bne_iff_ne, List.all_eq_true] at hpred
  refine ⟨rfl, rfl, rfl, hpred.1.1, hpred.1.2, ?_⟩
  intro o ho
  simpa using hpred.2 o ho

theorem mem_expandLinks_base (cfg : CrawlConfig) (ts : List Task) (parent : Task)
    (links : List String) :
    ∀ t ∈ expandLinks cfg ts parent links, t ∈ expandBase cfg ts parent links := by
  intro t ht
  unfold expandLinks at ht
  by_cases h : cfg.crawlInnerLinksOnly
  · rw [if_pos h] at ht
    exact (List.mem_filter.mp ht).1
  · rwa [if_neg h] at ht

theorem countProcessing_expandLinks (cfg : CrawlConfig) (ts : List Task) (parent : Task)
    (links : List String) : countProcessing (expandLinks cfg ts parent links) = 0 := by
  unfold countProcessing
  rw [List.countP_eq_zero]
  intro t ht
  have := (mem_expandBase cfg ts parent links t (mem_expandLinks_base cfg ts parent links t ht)).1
  simp [this]

theorem countProcessing_claimFirst_le (ts : List Task) :
    countProcessing (claimFirst ts) ≤ countProcessing ts + 1 := by
  induction ts with
  | nil => simp [claimFirst, countProcessing]
  | cons t r ih =>
    by_cases h : t.status == TaskStatus.pending
    · rw [claimFirst, if_pos h]
      simp only [countProcessing, List.countP_cons, beq_self_eq_true, if_true]
      omega
    · rw [claimFirst, if_neg h]
      simp only [countProcessing, List.countP_cons] at ih ⊢
      omega

theorem countProcessing_claimN_le (k : Nat) :
    ∀ ts, countProcessing (claimN k ts) ≤ countProcessing ts + k := by
  induction k with
  | zero => intro ts; simp [claimN]
  | succ k ih =>
    intro ts
    have h1 := ih (claimFirst ts)
    have h2 := countProcessing_claimFirst_le ts
    simp only [claimN]
    omega

theorem countProcessing_runTasksStep_le (cfg : CrawlConfig) (ts : List Task)
    (h : countProcessing ts ≤ cfg.maxParallelWorkers) :
    countProcessing (runTasksStep cfg ts) ≤ cfg.maxParallelWorkers := by
  unfold runTasksStep
  have h1 := countProcessing_claimN_le
    (min (countPending ts) (cfg.maxParallelWorkers - countProcessing ts)) ts
  have h2 := Nat.min_le_right (countPending ts) (cfg.maxParallelWorkers - countProcessing ts)
  omega

theorem countProcessing_completeTask_le (cfg : CrawlConfig) (ts : List Task) (i : Nat)
    (result : Option PageData) :
    countProcessing (completeTask cfg ts i result) ≤ countProcessing ts := by
  cases hget : ts[i]? with
  | none => simp [completeTask, hget]
  | some t =>
    cases result with
    | none =>
      simp only [completeTask, hget]
      exact countP_set_le _ _ (by simp) ts i
    | some pd =>
      simp only [completeTask, hget]
      by_cases hc : cfg.crawlLinks = true ∧ t.depth < cfg.crawlMaxDepth
      · rw [if_pos hc]
        have h1 := countP_set_le (fun t => t.status == TaskStatus.processing)
          { t with status := .processed, filename := some pd.filename } (by simp) ts i
        have h2 := countProcessing_expandLinks cfg
          (ts.set i { t with status := .processed, filename := some pd.filename })
          { t with status := .processed, filename := some pd.filename } pd.links
        simp only [countProcessing] at h1 h2 ⊢
        rw [List.countP_append, h2]
        omega
      · rw [if_neg hc]
        exact countP_set_le _ _ (by simp) ts i

theorem mem_claimFirst :
    ∀ (ts : List Task) (x : Task), x ∈ claimFirst ts →
      x ∈ ts ∨ ∃ t, t ∈ ts ∧ t.status = .pending ∧ x = { t with status := .processing } := by
  intro ts
  induction ts with
  | nil => intro x hx; simp [claimFirst] at hx
  | cons t r ih =>
    intro x hx
    by_cases h : t.status == TaskStatus.pending
    · rw [claimFirst, if_pos h] at hx
      rcases List.mem_cons.mp hx with rfl | hx2
      · exact Or.inr ⟨t, List.mem_cons_self .., by simpa using h, rfl⟩
      · exact Or.inl (List.mem_cons_of_mem _ hx2)
    · rw [claimFirst, if_neg h] at hx
      rcases List.mem_cons.mp hx with rfl | hx2
      · exact Or.inl (List.mem_cons_self ..)
      · rcases ih x hx2 with h1 | ⟨t0, ht0, hp, rfl⟩
        · exact Or.inl (List.mem_cons_of_mem _ h1)
        · exact Or.inr ⟨t0, List.mem_cons_of_mem _ ht0, hp, rfl⟩

theorem mem_claimN :
    ∀ (k : Nat) (ts : List Task) (x : Task), x ∈ claimN k ts →
      x ∈ ts ∨ ∃ t, t ∈ ts ∧ t.status = .pending ∧ x = { t with status := .processing } := by
  intro k
  induction k with
  | zero => intro ts x hx; exact Or.inl hx
  | succ k ih =>
    intro ts x hx
    rcases ih (claimFirst ts) x hx with h1 | ⟨t, ht, hp, rfl⟩
    · exact mem_claimFirst ts x h1
    · rcases mem_claimFirst ts t ht with h2 | ⟨t0, _, _, rfl⟩
      · exact Or.inr ⟨t, h2, hp, rfl⟩
      · simp at hp

theorem seedTasks_mem (cfg : CrawlConfig) (inp : SeedInput) :
    ∀ t ∈ seedTasks cfg inp, t.depth = 0 ∧ t.status = .pending ∧ t.filename = none := by
  intro t ht
  cases inp with
  | single url =>
    simp only [seedTasks, List.mem_singleton] at ht
    subst ht
    exact ⟨rfl, rfl, rfl⟩
  | urlsFile content =>
    obtain ⟨hmem, _⟩ := List.mem_filter.mp ht
    obtain ⟨u, _, rfl⟩ := List.mem_map.mp hmem
    exact ⟨rfl, rfl, rfl⟩

theorem seedTasks_urlsFile_url_ne (cfg : CrawlConfig) (content : String) :
    ∀ t ∈ seedTasks cfg (.urlsFile content), t.url ≠ "" := by
  intro t ht
  obtain ⟨_, hpred⟩ := List.mem_filter.mp ht
  simpa using hpred

theorem countProcessing_seedTasks (cfg : CrawlConfig) (inp : SeedInput) :
    countProcessing (seedTasks cfg inp) = 0 := by
  unfold countProcessing
  rw [List.countP_eq_zero]
  intro t ht
  have := (seedTasks_mem cfg inp t ht).2.1
  simp [this]

theorem reach_processing_bound {cfg : CrawlConfig} {inp : SeedInput} {s : List Task}
    (h : Reachable cfg inp s) : countProcessing s ≤ cfg.maxParallelWorkers := by
  induction h with
  | init =>
    apply countProcessing_runTasksStep_le
    rw [countProcessing_seedTasks]
    exact Nat.zero_le _
  | step _ hstep ih =>
    cases hstep with
    | complete i t result hget hstatus =>
      exact countProcessing_runTasksStep_le _ _
        (Nat.le_trans (countProcessing_completeTask_le _ _ i result) ih)

theorem depth_claimN (k : Nat) (ts : List Task) (D : Nat)
    (h : ∀ t ∈ ts, t.depth ≤ D) : ∀ t ∈ claimN k ts, t.depth ≤ D := by
  intro x hx
  rcases mem_claimN k ts x hx with h1 | ⟨t, ht, _, rfl⟩
  · exact h x h1
  · exact h t ht

theorem depth_completeTask (cfg : CrawlConfig) (ts : List Task) (i : Nat)
    (result : Option PageData) (h : ∀ t ∈ ts, t.depth ≤ cfg.crawlMaxDepth) :
    ∀ t ∈ completeTask cfg ts i result, t.depth ≤ cfg.crawlMaxDepth := by
  intro x hx
  rcases hget : ts[i]? with _ | t
  · rw [completeTask, hget] at hx
    exact h x hx
  · have hmem : t ∈ ts := mem_of_getElemOpt ts i t hget
    rcases result with _ | pd
    · rw [completeTask, hget] at hx
      rcases mem_set_cases ts i _ x hx with h1 | rfl
      · exact h x h1
      · exact h t hmem
    · simp only [completeTask, hget] at hx
      by_cases hc : cfg.crawlLinks = true ∧ t.depth < cfg.crawlMaxDepth
      · rw [if_pos hc] at hx
        rcases List.mem_append.mp hx with h1 | h1
        · rcases mem_set_cases ts i _ x h1 with h2 | rfl
          · exact h x h2
          · exact h t hmem
        · have := (mem_expandBase cfg _ _ pd.links x
            (mem_expandLinks_base cfg _ _ pd.links x h1)).2.2.1
          rw [this]
          show t.depth + 1 ≤ cfg.crawlMaxDepth
          omega
      · rw [if_neg hc] at hx
        rcases mem_set_cases ts i _ x hx with h1 | rfl
        · exact h x h1
        · exact h t hmem

theorem reach_depth_le {cfg : CrawlConfig} {inp : SeedInput} {s : List Task}
    (h : Reachable cfg inp s) : ∀ t ∈ s, t.depth ≤ cfg.crawlMaxDepth := by
  induction h with
  | init =>
    apply depth_claimN
    intro t ht
    rw [(seedTasks_mem cfg inp t ht).1]
    exact Nat.zero_le _
  | step _ hstep ih =>
    cases hstep with
    | complete i t result hget hstatus =>
      exact depth_claimN _ _ _ (depth_completeTask cfg _ i result ih)

theorem filename_claimN (k : Nat) (ts : List Task)
    (h : ∀ t ∈ ts, t.status ≠ .processed → t.filename = none) :
    ∀ t ∈ claimN k ts, t.status ≠ .processed → t.filename = none := by
  intro x hx
  rcases mem_claimN k ts x hx with h1 | ⟨t, ht, hp, rfl⟩
  · exact h x h1
  · intro _
    exact h t ht (by rw [hp]; intro hcontra; cases hcontra)

theorem filename_completeTask (cfg : CrawlConfig) (ts : List Task) (i : Nat)
    (result : Option PageData) (h : ∀ t ∈ ts, t.status ≠ .processed → t.filename = none) :
    ∀ t ∈ completeTask cfg ts i result, t.status ≠ .processed → t.filename = none := by
  intro x hx
  rcases hget : ts[i]? with _ | t
  · rw [completeTask, hget] at hx
    exact h x hx
  · rcases result with _ | pd
    · rw [completeTask, hget] at hx
      rcases mem_set_cases ts i _ x hx with h1 | rfl
      · exact h x h1
      · intro hcontra
        exact absurd rfl hcontra
    · simp only [completeTask, hget] at hx
      by_cases hc : cfg.crawlLinks = true ∧ t.depth < cfg.crawlMaxDepth
      · rw [if_pos hc] at hx
        rcases List.mem_append.mp hx with h1 | h1
        · rcases mem_set_cases ts i _ x h1 with h2 | rfl
          · exact h x h2
          · intro hcontra
            exact absurd rfl hcontra
        · intro _
          exact (mem_expandBase cfg _ _ pd.links x
            (mem_expandLinks_base cfg _ _ pd.links x h1)).2.1
      · rw [if_neg hc] at hx
        rcases mem_set_cases ts i _ x hx with h1 | rfl
        · exact h x h1
        · intro hcontra
          exact absurd rfl hcontra

theorem reach_filename_none {cfg : CrawlConfig} {inp : SeedInput} {s : List Task}
    (h : Reachable cfg inp s) : ∀ t ∈ s, t.status ≠ .processed → t.filename = none := by
  induction h with
  | init =>
    apply filename_claimN
    intro t ht _
    exact (seedTasks_mem cfg inp t ht).2.2
  | step _ hstep ih =>
    cases hstep with
    | complete i t result hget hstatus =>
      exact filename_claimN _ _ (filename_completeTask cfg _ i result ih)

theorem applyOthers_error (tasks : List Task) (hex : ∃ o ∈ tasks, o.filename = none) :
    ∀ c, List.foldlM applyOther c tasks = .error () := by
  induction tasks with
  | nil => rcases hex with ⟨o, ho, _⟩; simp at ho
  | cons o r ih =>
    intro c
    rw [List.foldlM_cons]
    rcases hf : o.filename with _ | fn
    · rw [applyOther, hf]
      rfl
    · rw [applyOther, hf]
      have hex' : ∃ o ∈ r, o.filename = none := by
        rcases hex with ⟨o', ho', hnone⟩
        rcases List.mem_cons.mp ho' with rfl | hmem
        · rw [hf] at hnone; cases hnone
        · exact ⟨o', hmem, hnone⟩
      simpa using ih hex' (applySubs c o.originalUrl fn)

theorem applyOthers_ok (tasks : List Task) (hall : ∀ o ∈ tasks, o.filename ≠ none) :
    ∀ c, List.foldlM applyOther c tasks =
      .ok (tasks.foldl (fun acc o => applySubs acc o.originalUrl (o.filename.getD "")) c) := by
  induction tasks with
  | nil => intro c; rfl
  | cons o r ih =>
    intro c
    rcases hf : o.filename with _ | fn
    · exact absurd hf (hall o (List.mem_cons_self ..))
    · rw [List.foldlM_cons, applyOther, hf, List.foldl_cons]
      have hall' : ∀ o ∈ r, o.filename ≠ none := fun o' ho' => hall o' (List.mem_cons_of_mem _ ho')
      rw [hf]
      simpa using ih hall' (applySubs c o.originalUrl fn)

theorem resolveTask_of_missing (fs : FS) (tasks : List Task) (t : Task)
    (hex : ∃ o ∈ tasks, o.filename = none) : resolveTask fs tasks t = fs := by
  rcases hf : t.filename with _ | fn
  · simp [resolveTask, hf]
  · rcases hr : fsRead fs fn with _ | content
    · simp [resolveTask, hf, hr]
    · simp [resolveTask, hf, hr, applyOthers_error tasks hex content]

theorem resolveAll_of_missing (fs : FS) (tasks : List Task)
    (hex : ∃ o ∈ tasks, o.filename = none) : resolveAll true fs tasks = fs := by
  rw [resolveAll, if_pos rfl]
  have : ∀ (l : List Task) (f : FS), l.foldl (fun f t => resolveTask f tasks t) f = f := by
    intro l
    induction l with
    | nil => intro f; rfl
    | cons t r ih =>
      intro f
      rw [List.foldl_cons, resolveTask_of_missing f tasks t hex]
      exact ih f
  exact this tasks fs

theorem resolveTask_of_all (fs : FS) (tasks : List Task) (t : Task) (fn content : String)
    (hall : ∀ o ∈ tasks, o.filename ≠ none) (hf : t.filename = some fn)
    (hr : fsRead fs fn = some content) :
    resolveTask fs tasks t =
      fsWrite fs fn
        (tasks.foldl (fun acc o => applySubs acc o.originalUrl (o.filename.getD "")) content) := by
  simp [resolveTask, hf, hr, applyOthers_ok tasks hall content]

theorem rewriteURL_trims_input (url : String) (rules : List String) :
    rewriteURL url rules = rewriteURL (jsTrim url) rules := by
  unfold rewriteURL
  rw [jsTrim_idem]

theorem rewriteURL_cons_two (url rule : String) (rules : List String) (p q : String)
    (h : splitSp (jsTrim rule) = [p, q]) :
    rewriteURL url (rule :: rules) = rewriteURL (replFirst (jsTrim url) p q) rules := by
  simp only [rewriteURL, List.foldl_cons, ruleStep, h]

theorem rewriteURL_cons_other (url rule : String) (rules : List String)
    (h : (splitSp (jsTrim rule)).length ≠ 2) :
    rewriteURL url (rule :: rules) = rewriteURL url rules := by
  unfold rewriteURL
  rw [List.foldl_cons]
  rcases hs : splitSp (jsTrim rule) with _ | ⟨a, _ | ⟨b, _ | _⟩⟩ <;>
    simp only [ruleStep, hs] <;> first
      | rfl
      | (exact absurd (by rw [hs]; rfl) h)

theorem isPrefixL_append_same (c : List Char) :
    ∀ (t1 t2 : List Char), isPrefixL (c ++ t1) (c ++ t2) = isPrefixL t1 t2 := by
  induction c with
  | nil => intro t1 t2; rfl
  | cons x c ih => intro t1 t2; simp [isPrefixL, ih]

theorem eq_of_isPrefixL_cons_self :
    ∀ (L : List Char) (c : Char) (r : List Char),
      isPrefixL L (c :: (L ++ r)) = true → ∀ x ∈ L, x = c := by
  intro L
  induction L with
  | nil => intro c r _ x hx; simp at hx
  | cons a M ih =>
    intro c r h x hx
    simp only [isPrefixL, List.cons_append, Bool.and_eq_true, beq_iff_eq] at h
    obtain ⟨h1, h2⟩ := h
    subst h1
    rcases List.mem_cons.mp hx with rfl | hx2
    · rfl
    · exact ih a r h2 x hx2

theorem isPrefixL_cons_self_false (L r : List Char) (c : Char) (hx : ∃ x ∈ L, x ≠ c) :
    isPrefixL L (c :: (L ++ r)) = false := by
  by_cases hb : isPrefixL L (c :: (L ++ r)) = true
  · obtain ⟨x, hxm, hxne⟩ := hx
    exact absurd (eq_of_isPrefixL_cons_self L c r hb x hxm) hxne
  · simpa using hb

theorem hostKey_reject (u : URLRec) (path : String)
    (hu : u.username ≠ "") (hp : u.password ≠ "") :
    strStarts (urlString u path) (getHostURL u) = false := by
  unfold strStarts urlString getHostURL
  rw [if_pos hu, if_pos hu, if_pos hp]
  simp only [data_append, List.append_assoc]
  rw [isPrefixL_append_same, isPrefixL_append_same, isPrefixL_append_same]
  have hshape : u.password.data ++ (['@'] ++ (u.hostname.data ++ path.data)) =
      (u.password.data ++ (['@'] ++ u.hostname.data)) ++ path.data := by
    simp [List.append_assoc]
  rw [hshape]
  show isPrefixL (u.password.data ++ (['@'] ++ u.hostname.data))
    (':' :: ((u.password.data ++ (['@'] ++ u.hostname.data)) ++ path.data)) = false
  exact isPrefixL_cons_self_false _ _ _ ⟨'@', by simp, by decide⟩

theorem getHostURL_userinfo (u : URLRec) (hu : u.username ≠ "") :
    getHostURL u = u.protocol ++ "//" ++ u.username ++ u.password ++ "@" ++ u.hostname := by
  unfold getHostURL
  rw [if_pos hu]
  simp [String.append_assoc]

theorem mem_expandLinks_inner (cfg : CrawlConfig) (ts : List Task) (parent : Task)
    (links : List String) (hio : cfg.crawlInnerLinksOnly = true) :
    ∀ t ∈ expandLinks cfg ts parent links,
      strStarts t.url (getHostURL (cfg.parse parent.url)) = true := by
  intro t ht
  unfold expandLinks at ht
  rw [if_pos hio] at ht
  exact (List.mem_filter.mp ht).2

theorem goGF_not_mem (disk : List String) (f : String) :
    ∀ (fuel idx : Nat) (r : String), goGF disk f fuel idx = some r → r ∉ disk := by
  intro fuel
  induction fuel with
  | zero => intro idx r h; simp [goGF] at h
  | succ fuel ih =>
    intro idx r h
    by_cases hc : candidate f idx ∈ disk
    · rw [goGF, if_pos hc] at h
      exact ih (idx + 1) r h
    · rw [goGF, if_neg hc] at h
      cases h
      exact hc

theorem goGF_first (disk : List String) (f : String) :
    ∀ (fuel idx : Nat) (r : String), goGF disk f fuel idx = some r →
      ∃ k, idx ≤ k ∧ r = candidate f k ∧ candidate f k ∉ disk ∧
        ∀ j, idx ≤ j → j < k → candidate f j ∈ disk := by
  intro fuel
  induction fuel with
  | zero => intro idx r h; simp [goGF] at h
  | succ fuel ih =>
    intro idx r h
    by_cases hc : candidate f idx ∈ disk
    · rw [goGF, if_pos hc] at h
      obtain ⟨k, hk1, hk2, hk3, hk4⟩ := ih (idx + 1) r h
      refine ⟨k, by omega, hk2, hk3, fun j hj1 hj2 => ?_⟩
      rcases Nat.eq_or_lt_of_le hj1 with rfl | hj3
      · exact hc
      · exact hk4 j hj3 hj2
    · rw [goGF, if_neg hc] at h
      cases h
      exact ⟨idx, Nat.le_refl _, rfl, hc, fun j hj1 hj2 => by omega⟩

/-- C1 counterexample: with a single processed task whose own original
URL occurs (double-quoted) in its own file, the resolver rewrites that
occurrence to the task's own filename, so a substitution pair from task
`T` itself is applied to `T`'s file, contradicting "the pairs applied to
a task T's file come only from tasks other than T". -/
theorem c1_counterexample :
    resolveAll true fsC1 [taskC1] = [("f.html", "x\"f.html\"y")] ∧
      resolveAll true fsC1 [taskC1] ≠ fsC1 := by
  exact ⟨by decide, by decide⟩

/-- C1 (amended): the resolver iterates over all tasks as substitution
sources, including the task being rewritten itself.  When some task has
no filename, the per-file rewrite aborts (the thrown error is swallowed)
before writing, so every file is left unchanged and no pair at all is
applied; when every task has a filename, the content written for a task
is the fold of all tasks' substitutions, the task's own included. -/
theorem c1_resolver_pairs :
    (∀ (fs : FS) (tasks : List Task), (∃ o ∈ tasks, o.filename = none) →
        resolveAll true fs tasks = fs) ∧
    (∀ (fs : FS) (tasks : List Task) (t : Task) (fn content : String),
        (∀ o ∈ tasks, o.filename ≠ none) → t.filename = some fn →
        fsRead fs fn = some content →
        resolveTask fs tasks t =
          fsWrite fs fn
            (tasks.foldl (fun acc o => applySubs acc o.originalUrl (o.filename.getD ""))
              content)) :=
  ⟨fun fs tasks hex => resolveAll_of_missing fs tasks hex,
   fun fs tasks t fn content hall hf hr => resolveTask_of_all fs tasks t fn content hall hf hr⟩

/-- Witness for C1: both amended branches at concrete inputs. -/
theorem c1_witness :
    (resolveAll true [("g.html", "u")]
        [{ url := "", originalUrl := "", depth := 0, status := .pending, filename := none }] =
      [("g.html", "u")]) ∧
    resolveTask fsC1 [taskC1] taskC1 =
      fsWrite fsC1 "f.html"
        (List.foldl (fun acc o => applySubs acc o.originalUrl (o.filename.getD ""))
          "x\"http://a/\"y" [taskC1]) :=
  ⟨c1_resolver_pairs.1 _ _
      ⟨{ url := "", originalUrl := "", depth := 0, status := .pending, filename := none },
        List.mem_singleton.mpr rfl, rfl⟩,
   c1_resolver_pairs.2 fsC1 [taskC1] taskC1 "f.html" "x\"http://a/\"y" (by decide) rfl
      (by decide)⟩

/-- C2 counterexample: from the seed `http://x/` with one worker, a
capture that reports the same link `http://x/a` twice produces a
reachable frontier holding two tasks with the identical rewritten url,
because the insertion filter checks candidates against the existing
frontier only, not against the other candidates of the same batch. -/
theorem c2_counterexample :
    Reachable cfgC2 (.single "http://x/") stateC2 ∧ ¬ (stateC2.map Task.url).Nodup := by
  constructor
  · exact Reachable.step Reachable.init
      (Step.complete (initState cfgC2 (.single "http://x/")) 0
        { url := "http://x/", originalUrl := "http://x/", depth := 0,
          status := .processing, filename := none } (some pdC2) (by decide) rfl)
  · decide

/-- C2 (amended): every candidate admitted by link expansion has a
rewritten url different from the url of every task already in the
frontier at insertion time; uniqueness against the other candidates
admitted in the same batch is not checked, so a link reported twice by
one capture enters the frontier twice. -/
theorem c2_frontier_unique :
    ∀ (cfg : CrawlConfig) (ts : List Task) (parent : Task) (links : List String),
      ∀ t ∈ expandLinks cfg ts parent links, ∀ o ∈ ts, o.url ≠ t.url :=
  fun cfg ts parent links t ht o ho =>
    (mem_expandBase cfg ts parent links t
      (mem_expandLinks_base cfg ts parent links t ht)).2.2.2.2.2 o ho

/-- Witness for C2: a frontier task's url differs from an admitted
candidate's url in a concrete expansion. -/
theorem c2_witness : ("http://x/" : String) ≠ "http://x/a" :=
  c2_frontier_unique cfgC2
    [{ url := "http://x/", originalUrl := "http://x/", depth := 0,
       status := .processed, filename := some "f.html" }]
    { url := "http://x/", originalUrl := "http://x/", depth := 0,
      status := .processed, filename := some "f.html" }
    ["http://x/a"]
    { url := "http://x/a", originalUrl := "http://x/a", depth := 1,
      status := .pending, filename := none }
    (by decide)
    { url := "http://x/", originalUrl := "http://x/", depth := 0,
      status := .processed, filename := some "f.html" }
    (by decide)

/-- C3 counterexample: a single seed URL consisting of one space
rewrites to the empty string, yet `run` builds its task without any
filter, so a task with an empty url enters the frontier (and is even
claimed by the first worker). -/
theorem c3_counterexample :
    seedTasks cfgC3 (.single " ") =
      [{ url := "", originalUrl := " ", depth := 0, status := .pending, filename := none }] ∧
    initState cfgC3 (.single " ") =
      [{ url := "", originalUrl := " ", depth := 0, status := .processing, filename := none }] :=
  ⟨by decide, by decide⟩

/-- C3 (amended): seed tasks read from a URL-list file and candidates
admitted during link expansion never carry an empty rewritten url; the
single-URL seed path performs no such filtering, so an empty rewritten
url can enter the frontier there. -/
theorem c3_empty_url :
    (∀ (cfg : CrawlConfig) (content : String),
        ∀ t ∈ seedTasks cfg (.urlsFile content), t.url ≠ "") ∧
    (∀ (cfg : CrawlConfig) (ts : List Task) (parent : Task) (links : List String),
        ∀ t ∈ expandLinks cfg ts parent links, t.url ≠ "") :=
  ⟨fun cfg content => seedTasks_urlsFile_url_ne cfg content,
   fun cfg ts parent links t ht =>
     (mem_expandBase cfg ts parent links t
       (mem_expandLinks_base cfg ts parent links t ht)).2.2.2.1⟩

/-- Witness for C3: a concrete URL-list seed has a non-empty url. -/
theorem c3_witness : ("http://a/" : String) ≠ "" :=
  c3_empty_url.1 cfgC3 "http://a/\n" (mkTask [] "http://a/" 0) (by decide)

/-- C4: in every reachable scheduler state the number of tasks with
status Processing is at most `maxParallelWorkers`: the initial
`runTasks` call and the respawn after each completion each start
`min(count Pending, maxParallelWorkers - count Processing)` workers and
each worker claims exactly one pending task before suspending. -/
theorem c4_processing_bound :
    ∀ (cfg : CrawlConfig) (inp : SeedInput) (s : List Task),
      Reachable cfg inp s → countProcessing s ≤ cfg.maxParallelWorkers :=
  fun _ _ _ h => reach_processing_bound h

/-- Witness for C4: the bound at the concrete initial state. -/
theorem c4_witness :
    countProcessing (initState cfgC2 (.single "http://x/")) ≤ cfgC2.maxParallelWorkers :=
  c4_processing_bound cfgC2 (.single "http://x/") _ Reachable.init

/-- C5: every task appended during link expansion has depth exactly
parent depth + 1, candidates beyond `crawlMaxDepth` are never admitted
(expansion only happens when the parent's depth is strictly below the
bound), and hence every task in every reachable frontier satisfies
`depth ≤ crawlMaxDepth`. -/
theorem c5_depth_invariant :
    (∀ (cfg : CrawlConfig) (ts : List Task) (parent : Task) (links : List String),
        ∀ t ∈ expandLinks cfg ts parent links, t.depth = parent.depth + 1) ∧
    (∀ (cfg : CrawlConfig) (inp : SeedInput) (s : List Task), Reachable cfg inp s →
        ∀ t ∈ s, t.depth ≤ cfg.crawlMaxDepth) :=
  ⟨fun cfg ts parent links t ht =>
     (mem_expandBase cfg ts parent links t
       (mem_expandLinks_base cfg ts parent links t ht)).2.2.1,
   fun _ _ _ h => reach_depth_le h⟩

/-- Witness for C5: the depth bound for the claimed seed task of a
concrete reachable state. -/
theorem c5_witness :
    ({ url := "http://x/", originalUrl := "http://x/", depth := 0,
       status := .processing, filename := none } : Task).depth ≤ cfgC2.crawlMaxDepth :=
  c5_depth_invariant.2 cfgC2 (.single "http://x/") _ Reachable.init _ (by decide)

/-- C6: each of the four resolver substitutions replaces, case
insensitively (the escaped pattern matches the original URL text
literally), every occurrence of its pattern: the double-quoted and
single-quoted forms place the filename verbatim inside the same quotes,
and the `=`-introduced forms terminated by a space or by `>` place the
space-encoded (`%20`) filename and keep the terminator; the closing
conjunct exercises all four forms at once, including an upper-case
occurrence of the URL. -/
theorem c6_substitution_forms :
    (∀ (u f : String) (a b : List Char),
        noMatchBefore ("\"" ++ u ++ "\"").data (a ++ (("\"" ++ u ++ "\"").data ++ b))
          a.length →
        replCoreS ("\"" ++ u ++ "\"").data ("\"" ++ f ++ "\"").data 0
            (a ++ (("\"" ++ u ++ "\"").data ++ b)) =
          a ++ (("\"" ++ f ++ "\"").data ++
            replCoreS ("\"" ++ u ++ "\"").data ("\"" ++ f ++ "\"").data 0 b)) ∧
    (∀ (u f : String) (a b : List Char),
        noMatchBefore ("'" ++ u ++ "'").data (a ++ (("'" ++ u ++ "'").data ++ b))
          a.length →
        replCoreS ("'" ++ u ++ "'").data ("'" ++ f ++ "'").data 0
            (a ++ (("'" ++ u ++ "'").data ++ b)) =
          a ++ (("'" ++ f ++ "'").data ++
            replCoreS ("'" ++ u ++ "'").data ("'" ++ f ++ "'").data 0 b)) ∧
    (∀ (u f : String) (a b : List Char),
        noMatchBefore ("=" ++ u ++ " ").data (a ++ (("=" ++ u ++ " ").data ++ b))
          a.length →
        replCoreS ("=" ++ u ++ " ").data ("=" ++ spaceEncode f ++ " ").data 0
            (a ++ (("=" ++ u ++ " ").data ++ b)) =
          a ++ (("=" ++ spaceEncode f ++ " ").data ++
            replCoreS ("=" ++ u ++ " ").data ("=" ++ spaceEncode f ++ " ").data 0 b)) ∧
    (∀ (u f : String) (a b : List Char),
        noMatchBefore ("=" ++ u ++ ">").data (a ++ (("=" ++ u ++ ">").data ++ b))
          a.length →
        replCoreS ("=" ++ u ++ ">").data ("=" ++ spaceEncode f ++ ">").data 0
            (a ++ (("=" ++ u ++ ">").data ++ b)) =
          a ++ (("=" ++ spaceEncode f ++ ">").data ++
            replCoreS ("=" ++ u ++ ">").data ("=" ++ spaceEncode f ++ ">").data 0 b)) ∧
    applySubs "<a href=\"HTTP://x/p\" b='http://x/p' c=http://x/p d=http://x/p>"
        "http://x/p" "p q.html" =
      "<a href=\"p q.html\" b='p q.html' c=p%20q.html d=p%20q.html>" := by
  refine ⟨?_, ?_, ?_, ?_, by decide⟩ <;>
    exact fun u f a b h =>
      replCoreS_middle _ _ (by simp [data_append]) a b h

/-- Witness for C6: the double-quote substitution at a concrete content
with an occurrence after the prefix and none before it. -/
theorem c6_witness :
    replCoreS ("\"" ++ "http://x" ++ "\"").data ("\"" ++ "f g.html" ++ "\"").data 0
        ("<p href=".data ++ (("\"" ++ "http://x" ++ "\"").data ++ ">".data)) =
      "<p href=".data ++ (("\"" ++ "f g.html" ++ "\"").data ++
        replCoreS ("\"" ++ "http://x" ++ "\"").data ("\"" ++ "f g.html" ++ "\"").data 0
          ">".data) :=
  c6_substitution_forms.1 "http://x" "f g.html" "<p href=".data ">".data (by decide)

/-- C7 counterexample: the rule "a<TAB>b" consists of exactly two
whitespace-separated fields, so under the claim's reading it rewrites
"a" to "b"; the source splits rules at spaces only (`split(/ +/)`),
sees a single field, and ignores the rule. -/
theorem c7_counterexample :
    rewriteURL "a" ["a\tb"] = "a" ∧ rewriteURLSpec "a" ["a\tb"] = "b" :=
  ⟨by decide, by decide⟩

/-- C7 (amended): `rewriteURL` first trims the input; a rule with
exactly two space-separated fields (runs of spaces separate fields;
tabs and other whitespace do not) replaces the first match of its
pattern field and the result is trimmed; a rule with any other number
of space-separated fields leaves the url unchanged; and the underlying
first-match replacement rewrites only the earliest occurrence, keeping
everything after it verbatim.  The embedding is a pure function, so the
operation has no side effects. -/
theorem c7_rewrite_amended :
    (∀ (url : String) (rules : List String),
        rewriteURL url rules = rewriteURL (jsTrim url) rules) ∧
    (∀ (url rule : String) (rules : List String) (p q : String),
        splitSp (jsTrim rule) = [p, q] →
        rewriteURL url (rule :: rules) = rewriteURL (replFirst (jsTrim url) p q) rules) ∧
    (∀ (url rule : String) (rules : List String),
        (splitSp (jsTrim rule)).length ≠ 2 →
        rewriteURL url (rule :: rules) = rewriteURL url rules) ∧
    (∀ (pat repl a b : List Char), pat ≠ [] →
        noMatchBeforeE pat (a ++ (pat ++ b)) a.length →
        replFirstCore pat repl (a ++ (pat ++ b)) = a ++ (repl ++ b)) :=
  ⟨fun url rules => rewriteURL_trims_input url rules,
   fun url rule rules p q h => rewriteURL_cons_two url rule rules p q h,
   fun url rule rules h => rewriteURL_cons_other url rule rules h,
   fun pat repl a b hp h => replFirstCore_middle pat repl hp a b h⟩

/-- Witness for C7: all four amended branches at concrete inputs. -/
theorem c7_witness :
    (rewriteURL " x " [] = rewriteURL (jsTrim " x ") []) ∧
    (rewriteURL "ab" ["a b"] = rewriteURL (replFirst (jsTrim "ab") "a" "b") []) ∧
    (rewriteURL "ab" ["a b c"] = rewriteURL "ab" []) ∧
    replFirstCore "a".data "b".data ("x".data ++ ("a".data ++ "a".data)) =
      "x".data ++ ("b".data ++ "a".data) :=
  ⟨c7_rewrite_amended.1 " x " [],
   c7_rewrite_amended.2.1 "ab" "a b" [] "a" "b" (by decide),
   c7_rewrite_amended.2.2.1 "ab" "a b c" [] (by decide),
   c7_rewrite_amended.2.2.2 "a".data "b".data "x".data "a".data (by decide) (by decide)⟩

/-- C8: `getFilename` returns the name unchanged when it is not on
disk; whenever it returns a name, that name is not on disk and is the
first probed candidate (the name itself for index 1, the name with
" - index" inserted before the extension, or appended when there is no
extension, for later indexes) that is free, every earlier candidate
being taken; and a ".html" name colliding exactly once gets " - 2"
inserted before ".html". -/
theorem c8_filename_allocator :
    (∀ (disk : List String) (f : String), f ∉ disk → getFilename disk f = some f) ∧
    (∀ (disk : List String) (f r : String), getFilename disk f = some r → r ∉ disk) ∧
    (∀ (disk : List String) (f r : String), getFilename disk f = some r →
        ∃ k, 1 ≤ k ∧ r = candidate f k ∧ candidate f k ∉ disk ∧
          ∀ j, 1 ≤ j → j < k → candidate f j ∈ disk) ∧
    getFilename ["x.html"] "x.html" = some "x - 2.html" := by
  refine ⟨?_, ?_, ?_, by decide⟩
  · intro disk f h
    have hc : candidate f 1 = f := by simp [candidate]
    rw [getFilename, goGF, hc, if_neg h]
  · intro disk f r h
    exact goGF_not_mem disk f (disk.length + 1) 1 r h
  · intro disk f r h
    exact goGF_first disk f (disk.length + 1) 1 r h

/-- Witness for C8: the conditional branches at concrete inputs. -/
theorem c8_witness :
    (getFilename ["y.html"] "x.html" = some "x.html") ∧
    ("x - 2.html" : String) ∉ (["x.html"] : List String) ∧
    (∃ k, 1 ≤ k ∧ ("x - 2.html" : String) = candidate "x.html" k ∧
      candidate "x.html" k ∉ (["x.html"] : List String) ∧
      ∀ j, 1 ≤ j → j < k → candidate "x.html" j ∈ (["x.html"] : List String)) :=
  ⟨c8_filename_allocator.1 ["y.html"] "x.html" (by decide),
   c8_filename_allocator.2.1 ["x.html"] "x.html" "x - 2.html" (by decide),
   c8_filename_allocator.2.2.1 ["x.html"] "x.html" "x - 2.html" (by decide)⟩

/-- C9: when the backend rejects, `capturePage` returns no page data
(so the task keeps no filename and spawns no children), and the block
"URL: url\nStack: error\n" is appended to the error file when one is
configured, else pushed to stderr; completing a task with no page data
only flips that task's status to processed, leaving the frontier
otherwise untouched; and in every reachable state a processing task has
no filename, so after a failed capture it ends processed with none. -/
theorem c9_capture_failure :
    (∀ (rc : RunCfg) (url stack : String) (w : World),
        (capturePage rc url (.error stack) w).1 = none) ∧
    (∀ (rc : RunCfg) (url stack : String) (w : World), rc.errorFile ≠ "" →
        (capturePage rc url (.error stack) w).2 =
          { w with disk :=
              fsAppend w.disk rc.errorFile ("URL: " ++ url ++ "\nStack: " ++ stack ++ "\n") }) ∧
    (∀ (rc : RunCfg) (url stack : String) (w : World), rc.errorFile = "" →
        (capturePage rc url (.error stack) w).2 =
          { w with stderrLog :=
              w.stderrLog ++ ["URL: " ++ url ++ "\nStack: " ++ stack ++ "\n"] }) ∧
    (∀ (cfg : CrawlConfig) (ts : List Task) (i : Nat) (t : Task), ts[i]? = some t →
        completeTask cfg ts i none = ts.set i { t with status := .processed }) ∧
    (∀ (cfg : CrawlConfig) (inp : SeedInput) (s : List Task), Reachable cfg inp s →
        ∀ t ∈ s, t.status = .processing → t.filename = none) := by
  refine ⟨fun rc url stack w => rfl, ?_, ?_, ?_, ?_⟩
  · intro rc url stack w h
    simp [capturePage, h]
  · intro rc url stack w h
    simp [capturePage, h]
  · intro cfg ts i t hget
    simp [completeTask, hget]
  · intro cfg inp s h t ht hp
    exact reach_filename_none h t ht (by rw [hp]; intro hc; cases hc)

/-- Witness for C9: the error-file and stderr branches and the
no-result completion at concrete inputs. -/
theorem c9_witness :
    ((capturePage ⟨"", "", "err.log"⟩ "http://u/" (.error "boom") ⟨[], [], []⟩).2 =
      { (⟨[], [], []⟩ : World) with disk :=
          (fsAppend [] "err.log" ("URL: " ++ "http://u/" ++ "\nStack: " ++ "boom" ++ "\n")) }) ∧
    ((capturePage ⟨"", "", ""⟩ "http://u/" (.error "boom") ⟨[], [], []⟩).2 =
      { (⟨[], [], []⟩ : World) with stderrLog :=
          ([] ++ ["URL: " ++ "http://u/" ++ "\nStack: " ++ "boom" ++ "\n"]) }) ∧
    completeTask cfgC3 [taskC1] 0 none = [taskC1].set 0 { taskC1 with status := .processed } :=
  ⟨c9_capture_failure.2.1 ⟨"", "", "err.log"⟩ "http://u/" "boom" ⟨[], [], []⟩ (by decide),
   c9_capture_failure.2.2.1 ⟨"", "", ""⟩ "http://u/" "boom" ⟨[], [], []⟩ rfl,
   c9_capture_failure.2.2.2.1 cfgC3 [taskC1] 0 taskC1 rfl⟩

/-- C10: for a URL with non-empty username and password, `getHostURL`
concatenates username and password with no colon between them; a link
serialized in the standard "username:password@" form therefore never
starts with that host key, and since every task admitted under
`crawlInnerLinksOnly` must start with the host key, such links are
rejected. -/
theorem c10_hostkey_userinfo :
    (∀ u : URLRec, u.username ≠ "" →
        getHostURL u = u.protocol ++ "//" ++ u.username ++ u.password ++ "@" ++ u.hostname) ∧
    (∀ (u : URLRec) (path : String), u.username ≠ "" → u.password ≠ "" →
        strStarts (urlString u path) (getHostURL u) = false) ∧
    (∀ (cfg : CrawlConfig) (ts : List Task) (parent : Task) (links : List String),
        cfg.crawlInnerLinksOnly = true →
        ∀ t ∈ expandLinks cfg ts parent links,
          strStarts t.url (getHostURL (cfg.parse parent.url)) = true) :=
  ⟨fun u hu => getHostURL_userinfo u hu,
   fun u path hu hp => hostKey_reject u path hu hp,
   fun cfg ts parent links hio => mem_expandLinks_inner cfg ts parent links hio⟩

/-- Witness for C10: host key shape and rejection at a concrete URL. -/
theorem c10_witness :
    (getHostURL ⟨"http:", "u", "p", "h"⟩ =
      "http:" ++ "//" ++ "u" ++ "p" ++ "@" ++ "h") ∧
    strStarts (urlString ⟨"http:", "u", "p", "h"⟩ "/x")
        (getHostURL ⟨"http:", "u", "p", "h"⟩) = false :=
  ⟨c10_hostkey_userinfo.1 ⟨"http:", "u", "p", "h"⟩ (by decide),
   c10_hostkey_userinfo.2.1 ⟨"http:", "u", "p", "h"⟩ "/x" (by decide) (by decide)⟩

end SingleFile
